import Mathlib

/-!
Verification of the pico-torrent sources against their specification.

Byte strings are modelled as `List Nat` (each element a byte value).
The Python code is shallowly embedded: every definition below is a direct
translation of a function in `src/pico_torrent`, with fallible operations
returning `Except`/`Option` and the byte-by-byte stream reads of the
bencode decoder modelled by explicit list recursion with fuel.
-/

/-- Keys of a Python dictionary produced or consumed by the bencode codec.
Python dictionary keys must be hashable, so only ints and bytes occur. -/
inductive BKey where
  | kint (n : Int)
  | kbytes (b : List Nat)
  deriving DecidableEq

mutual
/-- A bencode value (`BencodeValue = Union[list, dict, int, bytes]` in
`pico_torrent/bencode.py`).  Dictionaries keep their entries in insertion
order, exactly like Python `dict`/`OrderedDict`. -/
inductive BValue where
  | bint (n : Int)
  | bbytes (b : List Nat)
  | blist (l : BList)
  | bdict (d : BDict)

/-- A list of bencode values (insertion-ordered). -/
inductive BList where
  | nil
  | cons (hd : BValue) (tl : BList)

/-- An insertion-ordered dictionary of bencode values. -/
inductive BDict where
  | dnil
  | dcons (k : BKey) (v : BValue) (tl : BDict)
end

/-- View a dictionary key as a bencode value (Python stores the key object
itself; `_encode_dict` encodes it with the same `_encode_func` table). -/
def keyToVal : BKey → BValue
  | .kint n => .bint n
  | .kbytes b => .bbytes b

/-- Convert the embedded list type to a Lean list. -/
def BList.toList : BList → List BValue
  | .nil => []
  | .cons hd tl => hd :: tl.toList

/-- Convert the embedded dictionary type to a Lean association list. -/
def BDict.toList : BDict → List (BKey × BValue)
  | .dnil => []
  | .dcons k v tl => (k, v) :: tl.toList

/-- The keys of a dictionary, in insertion order. -/
def dictKeys : BDict → List BKey
  | .dnil => []
  | .dcons k _ tl => k :: dictKeys tl

/-- First-match lookup in a dictionary (Python `d[key]` on unique keys). -/
def dictLookup : BDict → BKey → Option BValue
  | .dnil, _ => none
  | .dcons k' v tl, k => if k' = k then some v else dictLookup tl k

/-- Append two dictionaries (entry concatenation). -/
def dappend : BDict → BDict → BDict
  | .dnil, d => d
  | .dcons k v tl, d => .dcons k v (dappend tl d)

/-- Digits of `n` in the given base, most significant first; structural
fuel recursion (any fuel above `n` gives the digits, since `n / base < n`
for `n ≥ base`). -/
def natDigitsGo (base : Nat) : Nat → Nat → List Nat
  | 0, _ => []
  | f + 1, n =>
    if n < base then [n] else natDigitsGo base f (n / base) ++ [n % base]

/-- Decimal digits of a natural number, most significant first
(the digits of Python `str(n)` for `n ≥ 0`). -/
def natDecDigits (n : Nat) : List Nat :=
  natDigitsGo 10 (n + 1) n

/-- ASCII bytes of Python `str(n)` for a natural number `n`. -/
def natDecBytes (n : Nat) : List Nat :=
  (natDecDigits n).map (· + 48)

/-- ASCII bytes of Python `str(v)` for an integer `v`
(`45` is the minus sign). -/
def intDecBytes : Int → List Nat
  | .ofNat n => natDecBytes n
  | .negSucc m => 45 :: natDecBytes (m + 1)

/-- Byte output of encoding a dictionary key (`_encode_dict` encodes the
key with the same `_encode_func` table used for values; a key is always an
int or a byte string).  Agrees with `bencode (keyToVal k)`. -/
def bencodeKey : BKey → List Nat
  | .kint n => 105 :: (intDecBytes n ++ [101])
  | .kbytes b => natDecBytes b.length ++ 58 :: b

mutual
/-- `BencodeEncoder.encode` (`bencode.py` lines 119-155): byte output of
encoding a value.  `105/101/108/100/58` are `i e l d :`.  Dictionary
entries are written by iterating `value.items()`, that is in insertion
order — the encoder performs no sorting. -/
def bencode : BValue → List Nat
  | .bint n => 105 :: (intDecBytes n ++ [101])
  | .bbytes b => natDecBytes b.length ++ 58 :: b
  | .blist l => 108 :: (bencodeList l ++ [101])
  | .bdict d => 100 :: (bencodeDict d ++ [101])
termination_by structural v => v

/-- `BencodeEncoder._encode_list` body: items in order. -/
def bencodeList : BList → List Nat
  | .nil => []
  | .cons v tl => bencode v ++ bencodeList tl
termination_by structural l => l

/-- `BencodeEncoder._encode_dict` body: for each entry, key then value,
in the dictionary's iteration (= insertion) order. -/
def bencodeDict : BDict → List Nat
  | .dnil => []
  | .dcons k v tl => bencodeKey k ++ bencode v ++ bencodeDict tl
termination_by structural d => d
end

/-- `BencodeDecoder._read_until` (`bencode.py` lines 48-60): read bytes up
to a one-byte separator.  At EOF Python `read(1)` returns `b''` forever and
the `while` loop never terminates; that case is `none`. -/
def pyReadUntil (sep : Nat) : List Nat → Option (List Nat × List Nat)
  | [] => none
  | c :: rest =>
    if c = sep then some ([], rest)
    else
      match pyReadUntil sep rest with
      | some (s, r) => some (c :: s, r)
      | none => none

/-- ASCII decimal digit test. -/
def isPyDigit (c : Nat) : Bool := 48 ≤ c && c ≤ 57

/-- ASCII whitespace stripped by Python `int(bytes)`. -/
def isPySpace (c : Nat) : Bool :=
  c = 32 || c = 9 || c = 10 || c = 11 || c = 12 || c = 13

/-- Digit-run parser underlying Python `int`: digits, with a single
underscore (95) permitted between digits. -/
def pyDigitsGo : List Nat → Nat → Option Nat
  | [], acc => some acc
  | c :: rest, acc =>
    if isPyDigit c then pyDigitsGo rest (acc * 10 + (c - 48))
    else if c = 95 then
      match rest with
      | d :: _ => if isPyDigit d then pyDigitsGo rest acc else none
      | [] => none
    else none

/-- Nonempty digit run (first character must be a digit). -/
def pyDigits : List Nat → Option Nat
  | [] => none
  | c :: rest => if isPyDigit c then pyDigitsGo rest (c - 48) else none

/-- The whitespace stripping Python `int(bytes)` performs on both ends of
its argument. -/
def pyStrip (s : List Nat) : List Nat :=
  ((s.dropWhile isPySpace).reverse.dropWhile isPySpace).reverse

/-- Python `int(s, base=10)` on a byte string: strips ASCII whitespace,
accepts an optional sign (43/45), then a digit run.  Notably `int(b'-0')`
is `0` and `int(b'03')` is `3`: Python accepts leading zeros and negative
zero. -/
def pyIntOfBytes (s : List Nat) : Option Int :=
  match pyStrip s with
  | 43 :: rest => (pyDigits rest).map (fun n => (n : Int))
  | 45 :: rest => (pyDigits rest).map (fun n => -(n : Int))
  | _ => (pyDigits (pyStrip s)).map (fun n => (n : Int))

/-- Outcome of running the decoder other than success.
`err` is `BencodeDecodeError` (the top-level `decode` catches `KeyError`,
`ValueError` and `TypeError`); `diverge` marks the infinite loop of
`_read_until` at EOF; `nofuel` marks fuel exhaustion of the model (Python
analogue: `RecursionError` on very deep nesting, which `decode` does not
catch). -/
inductive DFail where
  | err
  | diverge
  | nofuel
  deriving DecidableEq

/-- `dct[key] = value` needs a hashable key: ints and bytes are, lists and
dictionaries raise `TypeError`. -/
def toKey : BValue → Option BKey
  | .bint n => some (.kint n)
  | .bbytes b => some (.kbytes b)
  | .blist _ => none
  | .bdict _ => none

/-- `OrderedDict` assignment `dct[k] = v`: an existing key keeps its
position and gets the new value; a new key is appended at the end. -/
def ordInsert : BDict → BKey → BValue → BDict
  | .dnil, k, v => .dcons k v .dnil
  | .dcons k' v' tl, k, v =>
    if k' = k then .dcons k' v tl else .dcons k' v' (ordInsert tl k v)

mutual
/-- Dispatch of `BencodeDecoder._decode_func` on a type byte `d` that has
already been read (`bencode.py` lines 22-37): `i` → `_decode_int`, `l` →
`_decode_list`, `d` → `_decode_dict`, a digit → `_decode_bytes`, anything
else raises `KeyError` (caught as `BencodeDecodeError`). -/
def decodeVal : Nat → Nat → List Nat → Except DFail (BValue × List Nat)
  | 0, _, _ => .error .nofuel
  | f + 1, d, input =>
    if d = 105 then
      match pyReadUntil 101 input with
      | none => .error .diverge
      | some (s, rest) =>
        match pyIntOfBytes s with
        | some n => .ok (.bint n, rest)
        | none => .error .err
    else if d = 108 then
      match decodeListLoop f input with
      | .ok (l, rest) => .ok (.blist l, rest)
      | .error e => .error e
    else if d = 100 then
      match decodeDictLoop f .dnil input with
      | .ok (dct, rest) => .ok (.bdict dct, rest)
      | .error e => .error e
    else if isPyDigit d then
      match pyReadUntil 58 input with
      | none => .error .diverge
      | some (s, rest) =>
        match pyIntOfBytes (d :: s) with
        | some len => .ok (.bbytes (rest.take len.toNat), rest.drop len.toNat)
        | none => .error .err
    else .error .err

/-- Loop body of `_decode_list` (lines 74-83): read a type byte, stop on
`e` (101), otherwise decode one item and continue.  EOF at the type-byte
read gives `b''`, an unknown table key, hence `BencodeDecodeError`. -/
def decodeListLoop : Nat → List Nat → Except DFail (BList × List Nat)
  | 0, _ => .error .nofuel
  | f + 1, input =>
    match input with
    | [] => .error .err
    | d :: rest =>
      if d = 101 then .ok (.nil, rest)
      else
        match decodeVal f d rest with
        | .ok (v, rest') =>
          match decodeListLoop f rest' with
          | .ok (tl, rest'') => .ok (.cons v tl, rest'')
          | .error e => .error e
        | .error e => .error e

/-- Loop body of `_decode_dict` (lines 85-98): read a type byte, stop on
`e`, otherwise decode a key, read a type byte, decode a value, then store
`dct[key] = value` (`TypeError` for unhashable keys) and continue. -/
def decodeDictLoop : Nat → BDict → List Nat → Except DFail (BDict × List Nat)
  | 0, _, _ => .error .nofuel
  | f + 1, acc, input =>
    match input with
    | [] => .error .err
    | d :: rest =>
      if d = 101 then .ok (acc, rest)
      else
        match decodeVal f d rest with
        | .ok (kv, rest') =>
          match rest' with
          | [] => .error .err
          | d2 :: rest2 =>
            match decodeVal f d2 rest2 with
            | .ok (v, rest'') =>
              match toKey kv with
              | some k => decodeDictLoop f (ordInsert acc k v) rest''
              | none => .error .err
            | .error e => .error e
        | .error e => .error e
end

/-- `BencodeDecoder.decode` (lines 39-46) with explicit fuel: read one
byte (`b''` at EOF is an unknown table key → `BencodeDecodeError`) and
dispatch.  Trailing bytes after the value are ignored. -/
def pyDecodeF (f : Nat) (input : List Nat) : Except DFail BValue :=
  match input with
  | [] => .error .err
  | d :: rest => (decodeVal f d rest).map (fun p => p.1)

/-- `BencodeDecoder.decode` on a whole input.  Every recursive step of the
decoder consumes at least one input byte before recursing, so fuel
`input.length + 1` never runs out on inputs the decoder actually consumes
(the round-trip theorems prove termination on all encoder outputs). -/
def pyDecode (input : List Nat) : Except DFail BValue :=
  pyDecodeF (input.length + 1) input

mutual
/-- Well-formedness of a value as a Python object: every dictionary at
every level has pairwise-distinct keys (Python dicts cannot hold duplicate
keys, so every value that can be passed to `encode` satisfies this). -/
def WFb : BValue → Bool
  | .bint _ => true
  | .bbytes _ => true
  | .blist l => WFbL l
  | .bdict d => decide (dictKeys d).Nodup && WFbD d
termination_by structural v => v

/-- All members of a list are well formed. -/
def WFbL : BList → Bool
  | .nil => true
  | .cons v tl => WFb v && WFbL tl
termination_by structural l => l

/-- All values of a dictionary are well formed. -/
def WFbD : BDict → Bool
  | .dnil => true
  | .dcons _ v tl => WFb v && WFbD tl
termination_by structural d => d
end

/-! ## Metainfo loader (`pico_torrent/torrent.py`) -/

/-- Exceptions observable from `TorrentFile.from_torrent_file`.
`badTorrentFile` is the declared error; the others are ordinary Python
exceptions that the function does not catch and therefore escape.
`diverge`/`nofuel` propagate the corresponding decoder outcomes. -/
inductive TExc where
  | badTorrentFile
  | keyError
  | typeError
  | attributeError
  | indexError
  | diverge
  | nofuel
  deriving DecidableEq

/-- The bytes of the key `info`. -/
def kInfo : List Nat := [105, 110, 102, 111]
/-- The bytes of the key `files`. -/
def kFiles : List Nat := [102, 105, 108, 101, 115]
/-- The bytes of the key `path`. -/
def kPath : List Nat := [112, 97, 116, 104]
/-- The bytes of the key `length`. -/
def kLength : List Nat := [108, 101, 110, 103, 116, 104]
/-- The bytes of the key `name`. -/
def kName : List Nat := [110, 97, 109, 101]
/-- The bytes of the key `pieces`. -/
def kPieces : List Nat := [112, 105, 101, 99, 101, 115]
/-- The bytes of the key `piece length` (with a space). -/
def kPieceLength : List Nat :=
  [112, 105, 101, 99, 101, 32, 108, 101, 110, 103, 116, 104]
/-- The bytes of the key `announce`. -/
def kAnnounce : List Nat := [97, 110, 110, 111, 117, 110, 99, 101]
/-- The bytes of the key `announce-list`. -/
def kAnnounceList : List Nat :=
  [97, 110, 110, 111, 117, 110, 99, 101, 45, 108, 105, 115, 116]
/-- The bytes of the key `comment`. -/
def kComment : List Nat := [99, 111, 109, 109, 101, 110, 116]
/-- The bytes of the key `created by` (with a space). -/
def kCreatedBy : List Nat := [99, 114, 101, 97, 116, 101, 100, 32, 98, 121]
/-- The bytes of the key `creation date` (with a space). -/
def kCreationDate : List Nat :=
  [99, 114, 101, 97, 116, 105, 111, 110, 32, 100, 97, 116, 101]

/-- Python subscript `container[key]` with a byte-string key:
dictionary lookup (`KeyError` when absent); bytes, lists and ints raise
`TypeError` for a bytes subscript. -/
def pySubscriptB (v : BValue) (key : List Nat) : Except TExc BValue :=
  match v with
  | .bdict d =>
    match dictLookup d (.kbytes key) with
    | some x => .ok x
    | none => .error .keyError
  | .bbytes _ => .error .typeError
  | .blist _ => .error .typeError
  | .bint _ => .error .typeError

/-- Python subscript `container[i]` with a nonnegative int index:
list indexing (`IndexError` out of range), bytes indexing yields the byte
as an int, dictionary subscript is a key lookup with the int key, ints
raise `TypeError`. -/
def pySubscriptIdx (v : BValue) (i : Nat) : Except TExc BValue :=
  match v with
  | .blist l =>
    match l.toList.get? i with
    | some x => .ok x
    | none => .error .indexError
  | .bbytes b =>
    match b.get? i with
    | some c => .ok (.bint c)
    | none => .error .indexError
  | .bdict d =>
    match dictLookup d (.kint i) with
    | some x => .ok x
    | none => .error .keyError
  | .bint _ => .error .typeError

/-- Python iteration `for x in v`: lists yield their items, bytes yield
each byte as an int, dictionaries yield their keys, ints raise
`TypeError`. -/
def pyIter (v : BValue) : Except TExc (List BValue) :=
  match v with
  | .blist l => .ok l.toList
  | .bbytes b => .ok (b.map (fun c => .bint c))
  | .bdict d => .ok ((dictKeys d).map keyToVal)
  | .bint _ => .error .typeError

/-- Contiguous-substring test, Python `needle in hay` for byte strings. -/
def hasSub (needle hay : List Nat) : Bool :=
  (List.range (hay.length + 1)).any (fun i => (hay.drop i).take needle.length == needle)

/-- Python membership `key in v` for a byte-string `key`: key membership
for dictionaries, substring test for bytes, element equality for lists
(only a byte string can equal a byte string), `TypeError` for ints. -/
def pyContains (key : List Nat) (v : BValue) : Except TExc Bool :=
  match v with
  | .bdict d => .ok ((dictKeys d).any (fun k => k == .kbytes key))
  | .bbytes b => .ok (hasSub key b)
  | .blist l =>
    .ok (l.toList.any (fun x =>
      match x with
      | .bbytes b => b == key
      | _ => false))
  | .bint _ => .error .typeError

/-- Python `.decode()` on a value: defined for bytes (the decoded text is
kept as its bytes; a `UnicodeDecodeError` on invalid UTF-8 is not modelled,
no claim depends on it); any other type lacks the attribute and raises
`AttributeError`. -/
def pyBytesDecode (v : BValue) : Except TExc (List Nat) :=
  match v with
  | .bbytes b => .ok b
  | _ => .error .attributeError

/-- Python truthiness of a decoded value: nonzero int, nonempty
bytes/list/dict. -/
def pyTruthy (v : BValue) : Bool :=
  match v with
  | .bint n => n != 0
  | .bbytes b => !b.isEmpty
  | .blist l => !l.toList.isEmpty
  | .bdict d => !d.toList.isEmpty

/-- `datetime.datetime.fromtimestamp` applied to a decoded value: accepts
an int (the resulting datetime is represented by its timestamp; the
platform range check is not modelled), any other decoded type raises
`TypeError`. -/
def pyFromTimestamp (v : BValue) : Except TExc Int :=
  match v with
  | .bint n => .ok n
  | _ => .error .typeError

/-- The pieces-splitting loop of `TorrentFile.from_torrent_file`
(`torrent.py` lines 83-98): walk the bytes with their indices, append the
accumulated chunk when `index != 0 and index % 20 == 0` (this appends the
byte at index 20 first, so the first chunk has 21 bytes), and append any
nonempty leftover at the end.  No multiple-of-20 check is performed. -/
def piecesSplit (b : List Nat) : List (List Nat) :=
  let st := b.enum.foldl
    (fun (st : List (List Nat) × List Nat) (p : Nat × Nat) =>
      let piece := st.2 ++ [p.2]
      if p.1 ≠ 0 ∧ p.1 % 20 = 0 then (st.1 ++ [piece], []) else (st.1, piece))
    ([], [])
  if st.2.isEmpty then st.1 else st.1 ++ [st.2]

/-- The expression `data[b'info'][b'pieces']` as consumed by the pieces
loop: `len` plus 1-byte slicing plus `bytes.__iadd__`.  Bytes are split by
`piecesSplit`; `len` of an int raises `TypeError`; a nonempty list or dict
fails (`piece += [x]` is a `TypeError`, and slicing a dict is unhashable),
while an empty one yields an empty pieces list without error. -/
def piecesOf (v : BValue) : Except TExc (List (List Nat)) :=
  match v with
  | .bbytes b => .ok (piecesSplit b)
  | .bint _ => .error .typeError
  | .blist l => if l.toList.isEmpty then .ok [] else .error .typeError
  | .bdict d => if d.toList.isEmpty then .ok [] else .error .typeError

/-- `TorrentInfoFile` (`torrent.py` lines 17-22): the `length` field is
stored exactly as found in the metainfo dictionary, without a type
check. -/
structure TorrentInfoFileM where
  path : List Nat
  length : BValue

/-- `TorrentInfo` (`torrent.py` lines 25-32); `pieceLength` is stored
exactly as found. -/
structure TorrentInfoM where
  name : List Nat
  pieces : List (List Nat)
  pieceLength : BValue
  files : List TorrentInfoFileM

/-- `TorrentFile` (`torrent.py` lines 35-48).  `creationDate` holds the
timestamp of the constructed datetime when one was built. -/
structure TorrentFileM where
  announce : List Nat
  announceList : Option (List (List Nat))
  comment : Option (List Nat)
  createdBy : Option (List Nat)
  creationDate : Option Int
  info : TorrentInfoM
  infoHash : List Nat

/-- `TorrentFile.from_torrent_file` (`torrent.py` lines 50-129),
parameterised by the SHA-1 function (`sha1`): decode (a
`BencodeDecodeError` becomes `BadTorrentFile`; the decoder's EOF loop
makes the whole call loop), require a dict, then extract the fields in
source order.  Only the first two steps are guarded: every later lookup or
method call raises its ordinary Python exception. -/
def fromTorrentFile (sha1 : List Nat → List Nat) (input : List Nat) :
    Except TExc TorrentFileM :=
  match pyDecode input with
  | .error .err => .error .badTorrentFile
  | .error .diverge => .error .diverge
  | .error .nofuel => .error .nofuel
  | .ok data =>
    match data with
    | .bdict ddata => do
      let info ← pySubscriptB (.bdict ddata) kInfo
      let infoHash := sha1 (bencode info)
      let hasFiles ← pyContains kFiles info
      let torrentFiles ←
        if hasFiles then do
          let filesVal ← pySubscriptB info kFiles
          let fdicts ← pyIter filesVal
          fdicts.foldlM (fun acc fd => do
            let pathVal ← pySubscriptB fd kPath
            let items ← pyIter pathVal
            let comps ← items.mapM pyBytesDecode
            let flen ← pySubscriptB fd kLength
            pure (acc ++ [TorrentInfoFileM.mk (List.intercalate [47] comps) flen])) []
        else do
          let nameV ← pySubscriptB info kName
          let nm ← pyBytesDecode nameV
          let flen ← pySubscriptB info kLength
          pure [TorrentInfoFileM.mk nm flen]
      let piecesV ← pySubscriptB info kPieces
      let pieces ← piecesOf piecesV
      let nameV2 ← pySubscriptB info kName
      let nm ← pyBytesDecode nameV2
      let pieceLength ← pySubscriptB info kPieceLength
      let hasAL := (dictKeys ddata).any (fun k => k == .kbytes kAnnounceList)
      let announceList ←
        if hasAL then do
          let alV ← pySubscriptB (.bdict ddata) kAnnounceList
          let items ← pyIter alV
          items.mapM (fun it => do
            let first ← pySubscriptIdx it 0
            pyBytesDecode first)
        else pure []
      let comment := (dictLookup ddata (.kbytes kComment)).getD (.bbytes [])
      let createdBy := (dictLookup ddata (.kbytes kCreatedBy)).getD (.bbytes [])
      let creationDateRaw := dictLookup ddata (.kbytes kCreationDate)
      let creationDate ←
        match creationDateRaw with
        | some v => if pyTruthy v then (pyFromTimestamp v).map some else pure none
        | none => pure none
      let announceV ← pySubscriptB (.bdict ddata) kAnnounce
      let announce ← pyBytesDecode announceV
      let commentB ← pyBytesDecode comment
      let createdByB ← pyBytesDecode createdBy
      pure
        { announce := announce
          announceList := if announceList.isEmpty then none else some announceList
          comment := if commentB.isEmpty then none else some commentB
          createdBy := if createdByB.isEmpty then none else some createdByB
          creationDate := creationDate
          info :=
            { name := nm
              pieces := pieces
              pieceLength := pieceLength
              files := torrentFiles }
          infoHash := infoHash }
    | _ => .error .badTorrentFile

/-! ## Trackers manager (`pico_torrent/protocol/trackers/manager.py`) -/

/-- The observable state of one `TorrentTracker` for a call to
`TrackersManager.get_remote_peers`: its `interval` attribute (`None`
before a first successful announce) and the outcome of the
`get_available_peers()` call the manager would make (`.error ()` models a
raised `BadTrackerResponse`, the only exception the manager catches).
Peers are abstract values of type `α`. -/
structure TrackerM (α : Type) where
  interval : Option Nat
  fetchResult : Except Unit (List α)

/-- The loop body of `TrackersManager.get_remote_peers` (`manager.py`
lines 27-52), threading the `all_avaliable_peers` list as `acc`.
Eligibility: a visited tracker is skipped when
`last_visited + (interval or 0) >= now`.  On a successful fetch the code
runs `available_peers_from_tracker.extend(available_peers_from_tracker)` —
doubling a local list that is then discarded — and updates the last-visit
time; `acc` is never extended. -/
def getRemotePeersLoop {α : Type} (now : Nat) :
    List (TrackerM α × Option Nat) → List α →
    List α × List (TrackerM α × Option Nat)
  | [], acc => (acc, [])
  | (tr, lastVisited) :: rest, acc =>
    let skip :=
      match lastVisited with
      | some lv => decide (now ≤ lv + tr.interval.getD 0)
      | none => false
    if skip then
      let r := getRemotePeersLoop now rest acc
      (r.1, (tr, lastVisited) :: r.2)
    else
      match tr.fetchResult with
      | .error _ =>
        let r := getRemotePeersLoop now rest acc
        (r.1, (tr, lastVisited) :: r.2)
      | .ok peers =>
        let _doubled := peers ++ peers
        let r := getRemotePeersLoop now rest acc
        (r.1, (tr, some now) :: r.2)

/-- `TrackersManager.get_remote_peers`: returns the collected peers list
and the updated tracker list.  The `all_avaliable_peers` accumulator
starts empty. -/
def getRemotePeers {α : Type} (now : Nat)
    (trackers : List (TrackerM α × Option Nat)) :
    List α × List (TrackerM α × Option Nat) :=
  getRemotePeersLoop now trackers []

/-! ## Wire framing (`raw_message.py`, `messages.py`) -/

/-- `struct.pack('>I', n)`: four big-endian bytes (theorems assume
`n < 2^32`; Python raises `struct.error` outside that range). -/
def pack32 (n : Nat) : List Nat :=
  [n / 2 ^ 24 % 256, n / 2 ^ 16 % 256, n / 2 ^ 8 % 256, n % 256]

/-- `struct.unpack('>I', l)`: requires a buffer of exactly 4 bytes,
otherwise `struct.error` (`none`). -/
def unpack32 (l : List Nat) : Option Nat :=
  match l with
  | [a, b, c, d] => some (((a * 256 + b) * 256 + c) * 256 + d)
  | _ => none

/-- `struct.unpack('>III', l)`: requires exactly 12 bytes. -/
def unpackIII (l : List Nat) : Option (Nat × Nat × Nat) :=
  if l.length = 12 then
    match unpack32 (l.take 4), unpack32 ((l.drop 4).take 4), unpack32 (l.drop 8) with
    | some a, some b, some c => some (a, b, c)
    | _, _, _ => none
  else none

/-- The bytes of the literal `BitTorrent protocol`. -/
def pstrBytes : List Nat :=
  [66, 105, 116, 84, 111, 114, 114, 101, 110, 116, 32, 112, 114, 111,
   116, 111, 99, 111, 108]

/-- `RawPeerMessage` (`raw_message.py` lines 27-33).  `messageId` is the
`PeerMessageId` int value (`-1` KeepAlive, `-2` Handshake). -/
structure RawMsg where
  length : Nat
  messageId : Int
  payload : List Nat
  deriving DecidableEq

/-- Exceptions raised while decoding a wire message. -/
inductive WireExc where
  | structError
  | valueError
  deriving DecidableEq

/-- `RawPeerMessage.from_bytes` (`raw_message.py` lines 35-67).  The
handshake probe `struct.unpack('>B19s8x20s20s', raw)` succeeds exactly on
68-byte input, and the branch is taken when bytes 1-19 spell
`BitTorrent protocol`.  Otherwise the 4-byte length prefix is read
(`struct.error` on shorter input — not caught), `0` means KeepAlive, and
for any other length byte 4 is the message id (`PeerMessageId(...)`
raises `ValueError` above 9) and the payload is the slice
`raw[5:5+length]`, silently truncated at the end of input. -/
def rawFromBytes (raw : List Nat) : Except WireExc RawMsg :=
  if raw.length = 68 ∧ (raw.drop 1).take 19 = pstrBytes then
    .ok { length := 19, messageId := -2, payload := raw }
  else
    match unpack32 (raw.take 4) with
    | none => .error .structError
    | some length =>
      if length = 0 then .ok { length := 0, messageId := -1, payload := [] }
      else
        match (raw.drop 4).take 1 with
        | [mid] =>
          if mid ≤ 9 then
            .ok { length := length, messageId := (mid : Int),
                  payload := (raw.drop 5).take length }
          else .error .valueError
        | _ => .error .structError

/-- The wire messages of `messages.py` (Handshake aside), with their
fields. -/
inductive PMsg where
  | keepAlive
  | choke
  | unchoke
  | interested
  | notInterested
  | haveMsg (pieceIndex : Nat)
  | bitField (raw : List Nat)
  | request (index begin_ length : Nat)
  | piece (index begin_ : Nat) (block : List Nat)
  | cancel (index begin_ length : Nat)
  | port (listenPort : Nat)
  deriving DecidableEq

/-- `encode` of each message class (`messages.py`): a 4-byte length
prefix, the message id byte, then the type-specific payload.  Note `Port`
(lines 393-400) declares length `3` yet packs the port as a 4-byte `>I`,
and `KeepAlive` is the bare zero length. -/
def pmsgEncode : PMsg → List Nat
  | .keepAlive => pack32 0
  | .choke => pack32 1 ++ [0]
  | .unchoke => pack32 1 ++ [1]
  | .interested => pack32 1 ++ [2]
  | .notInterested => pack32 1 ++ [3]
  | .haveMsg i => pack32 5 ++ [4] ++ pack32 i
  | .bitField raw => pack32 (raw.length + 1) ++ [5] ++ raw
  | .request i b l => pack32 13 ++ [6] ++ pack32 i ++ pack32 b ++ pack32 l
  | .piece i b blk => pack32 (9 + blk.length) ++ [7] ++ pack32 i ++ pack32 b ++ blk
  | .cancel i b l => pack32 13 ++ [8] ++ pack32 i ++ pack32 b ++ pack32 l
  | .port p => pack32 3 ++ [9] ++ pack32 p

/-- The message classes, for dispatching `decode_from_raw`. -/
inductive PType where
  | tKeepAlive
  | tChoke
  | tUnchoke
  | tInterested
  | tNotInterested
  | tHave
  | tBitField
  | tRequest
  | tPiece
  | tCancel
  | tPort
  deriving DecidableEq

/-- The `message_id` class attribute of each message class. -/
def ptypeId : PType → Int
  | .tKeepAlive => -1
  | .tChoke => 0
  | .tUnchoke => 1
  | .tInterested => 2
  | .tNotInterested => 3
  | .tHave => 4
  | .tBitField => 5
  | .tRequest => 6
  | .tPiece => 7
  | .tCancel => 8
  | .tPort => 9

/-- `decode_from_raw` of each message class: `_check_message_type` raises
`ValueError` on an id mismatch, then the payload is unpacked with an
exact-size `struct` format (`>I`, `>III`, `>{n}s`, ...), raising
`struct.error` when the payload size does not match. -/
def decodeFromRaw (t : PType) (r : RawMsg) : Except WireExc PMsg :=
  if r.messageId ≠ ptypeId t then .error .valueError
  else
    match t with
    | .tKeepAlive => .ok .keepAlive
    | .tChoke => .ok .choke
    | .tUnchoke => .ok .unchoke
    | .tInterested => .ok .interested
    | .tNotInterested => .ok .notInterested
    | .tHave =>
      match unpack32 r.payload with
      | some i => .ok (.haveMsg i)
      | none => .error .structError
    | .tBitField =>
      if r.payload.length = r.length - 1 then .ok (.bitField r.payload)
      else .error .structError
    | .tRequest =>
      match unpackIII r.payload with
      | some (i, b, l) => .ok (.request i b l)
      | none => .error .structError
    | .tPiece =>
      match unpack32 (r.payload.take 4), unpack32 ((r.payload.drop 4).take 4) with
      | some i, some b =>
        if (r.payload.drop 8).length = r.length - 9 then
          .ok (.piece i b (r.payload.drop 8))
        else .error .structError
      | _, _ => .error .structError
    | .tCancel =>
      match unpackIII r.payload with
      | some (i, b, l) => .ok (.cancel i b l)
      | none => .error .structError
    | .tPort =>
      match unpack32 r.payload with
      | some p => .ok (.port p)
      | none => .error .structError

/-- Full decode of a frame as class `t`: `RawPeerMessage.from_bytes`
followed by `t.decode_from_raw`. -/
def decodeAs (t : PType) (raw : List Nat) : Except WireExc PMsg :=
  match rawFromBytes raw with
  | .ok r => decodeFromRaw t r
  | .error e => .error e

/-! ## BitField bit lookup (`messages.py` lines 200-224) -/

/-- Binary digits of `n`, most significant first; `bin(n)[2:]` with `'1'`
mapped to `true` (`bin(0)[2:]` is the single character `0`). -/
def natBinDigits (n : Nat) : List Bool :=
  (natDigitsGo 2 (n + 1) n).map (fun d => decide (d = 1))

/-- The per-byte conversion of `BitField.__init__`: start from
`[False] * 8` and write the digits of `bin(byte)[2:]` at offset
`8 - len(bin_representation)` (`List.set`, like the Python list
assignment, for the in-range indices that occur for a byte value). -/
def byteBits (byte : Nat) : List Bool :=
  let rep := natBinDigits byte
  let start := 8 - rep.length
  rep.enum.foldl (fun bits p => bits.set (start + p.1) p.2)
    (List.replicate 8 false)

/-- `self.bit_field_lookup`: the per-byte bit lists concatenated. -/
def bitFieldLookup (raws : List Nat) : List Bool :=
  (raws.map byteBits).flatten

/-- Exceptions raised by `BitField.have_piece`. -/
inductive BfExc where
  | valueError
  | indexError
  deriving DecidableEq

/-- `BitField.have_piece` (`messages.py` lines 217-224): an explicit
`ValueError` when `piece_index > len(self.bit_field_lookup)` (strict
greater-than), otherwise the list access `self.bit_field_lookup[piece_index]`,
which itself raises `IndexError` at `piece_index == len`. -/
def havePiece (raws : List Nat) (i : Nat) : Except BfExc Bool :=
  let lookup := bitFieldLookup raws
  if i > lookup.length then .error .valueError
  else
    match lookup.get? i with
    | some b => .ok b
    | none => .error .indexError

/-! ## Piece/block model (`pico_torrent/protocol/pieces/piece.py`) -/

/-- `BlockStatus` (`piece.py` lines 10-15; the source spells the third
state `Retreived`). -/
inductive BlockStatus where
  | missing
  | pending
  | retreived
  deriving DecidableEq

/-- `PieceBlock` (`piece.py` lines 18-31). -/
structure PieceBlock where
  pieceIndex : Nat
  offset : Nat
  length : Nat
  data : List Nat
  status : BlockStatus
  deriving DecidableEq

/-- Lookup in the offset-keyed `self.blocks` dictionary (Python
`offset in self.blocks` / `self.blocks[offset]`). -/
def offLookup : List (Nat × PieceBlock) → Nat → Option PieceBlock
  | [], _ => none
  | (k, c) :: tl, o => if k = o then some c else offLookup tl o

/-- The two assignments `self.blocks[offset].status = Retreived` and
`self.blocks[offset].data = data`: point update of the entry with the
given key (a Python dict holds one entry per key). -/
def offUpdate (offset : Nat) (data : List Nat) :
    List (Nat × PieceBlock) → List (Nat × PieceBlock)
  | [] => []
  | (k, c) :: tl =>
    if k = offset then (k, { c with status := .retreived, data := data }) :: tl
    else (k, c) :: offUpdate offset data tl

/-- `Piece.add_block` (`piece.py` lines 63-70) acting on the
`self.blocks` offset-keyed dictionary: an unknown offset returns with no
change at all; for a known offset the block's status is set to
`Retreived` and its data replaced, with no check of the previous
status. -/
def addBlock (blocks : List (Nat × PieceBlock)) (offset : Nat)
    (data : List Nat) : List (Nat × PieceBlock) :=
  if (offLookup blocks offset).isNone then blocks
  else offUpdate offset data blocks

/-- `Piece.reset` (`piece.py` lines 57-61): every block back to `Missing`
with empty data. -/
def resetBlocks (blocks : List (Nat × PieceBlock)) : List (Nat × PieceBlock) :=
  blocks.map (fun e => (e.1, { e.2 with status := .missing, data := [] }))

/-- `Piece.is_complete` (`piece.py` lines 72-77). -/
def isComplete (blocks : List (Nat × PieceBlock)) : Bool :=
  blocks.all (fun e => e.2.status == .retreived)

/-- The value of the `piece_hash` argument of `Piece.__init__`: annotated
`str` in the source, while the SHA-1 digest compared against it is
`bytes`.  Both carry their code units as `List Nat`. -/
inductive PyStrOrBytes where
  | str (s : List Nat)
  | bytes (b : List Nat)
  deriving DecidableEq

/-- Python `==` between a bytes object (left) and a str-or-bytes object
(right): bytes compare by content, while `bytes == str` is always `False`
(both operands return `NotImplemented`). -/
def pyBytesEq (b : List Nat) : PyStrOrBytes → Bool
  | .str _ => false
  | .bytes b' => b == b'

/-- Stable insertion into a list sorted by `offset` (used to model Python
`sorted(..., key=lambda block: block.offset)`). -/
def insertByOffset (b : PieceBlock) : List PieceBlock → List PieceBlock
  | [] => [b]
  | c :: tl => if b.offset ≤ c.offset then b :: c :: tl else c :: insertByOffset b tl

/-- Stable sort by offset. -/
def sortByOffset : List PieceBlock → List PieceBlock
  | [] => []
  | b :: tl => insertByOffset b (sortByOffset tl)

/-- `Piece` (`piece.py` lines 34-44): index, the `piece_hash` argument as
stored, and the offset-keyed block dictionary. -/
structure PieceM where
  index : Nat
  hash : PyStrOrBytes
  blocks : List (Nat × PieceBlock)

/-- `Piece.content` (`piece.py` lines 79-88): block data concatenated in
offset order. -/
def pieceContent (p : PieceM) : List Nat :=
  ((sortByOffset (p.blocks.map Prod.snd)).map (fun b => b.data)).flatten

/-- `Piece.is_hash_matching` (`piece.py` lines 90-93), parameterised by
the SHA-1 function: `hashlib.sha1(content).digest()` is a bytes object
compared with `==` against the stored hash. -/
def isHashMatching (sha1 : List Nat → List Nat) (p : PieceM) : Bool :=
  pyBytesEq (sha1 (pieceContent p)) p.hash

/-- A concrete single-file metainfo dictionary (`announce` → the byte `u`,
`info` → `{length: 12, name: "n", piece length: 16384, pieces: nb bytes}`),
with the pieces string taken to be the bytes `0, 1, ..., nb-1`. -/
def sampleTorrent (nb : Nat) : BValue :=
  .bdict (.dcons (.kbytes kAnnounce) (.bbytes [117])
    (.dcons (.kbytes kInfo)
      (.bdict (.dcons (.kbytes kLength) (.bint 12)
        (.dcons (.kbytes kName) (.bbytes [110])
          (.dcons (.kbytes kPieceLength) (.bint 16384)
            (.dcons (.kbytes kPieces) (.bbytes (List.range nb)) .dnil)))))
      .dnil))

/-! ## Theorems -/

/-- The byte output of `_encode_dict` is the concatenation of the encoded
entries in the dictionary's own (insertion) order. -/
theorem bencodeDict_eq_flatten : ∀ (d : BDict),
    bencodeDict d
      = (d.toList.map (fun kv => bencodeKey kv.1 ++ bencode kv.2)).flatten
  | .dnil => rfl
  | .dcons k v tl => by
    simp [bencodeDict, BDict.toList, bencodeDict_eq_flatten tl]
termination_by structural d => d

/-- C1 (amended): `BencodeEncoder.encode` emits a dictionary as `d`, then
each entry (encoded key followed by encoded value) in the dictionary's
insertion order, then `e`; the encoder does not sort the keys, so the
output depends on insertion order. -/
theorem c1_dict_encode_insertion_order (d : BDict) :
    bencode (.bdict d)
      = 100 :: ((d.toList.map (fun kv => bencodeKey kv.1 ++ bencode kv.2)).flatten
          ++ [101]) := by
  rw [bencode, bencodeDict_eq_flatten]

/-- C1 (counterexample): the dictionaries `{b: 1, a: 2}` and `{a: 2, b: 1}`
hold the same entries yet encode to different byte strings, and the first
output lists key `b` (98) before key `a` (97) — the claimed sorting by raw
byte value (which would put `a` first regardless of insertion order) does
not happen. -/
theorem c1_counterexample :
    bencode (.bdict (.dcons (.kbytes [98]) (.bint 1)
        (.dcons (.kbytes [97]) (.bint 2) .dnil)))
      = [100, 49, 58, 98, 105, 49, 101, 49, 58, 97, 105, 50, 101, 101]
    ∧ bencode (.bdict (.dcons (.kbytes [97]) (.bint 2)
        (.dcons (.kbytes [98]) (.bint 1) .dnil)))
      = [100, 49, 58, 97, 105, 50, 101, 49, 58, 98, 105, 49, 101, 101]
    ∧ ([100, 49, 58, 98, 105, 49, 101, 49, 58, 97, 105, 50, 101, 101] : List Nat)
      ≠ [100, 49, 58, 97, 105, 50, 101, 49, 58, 98, 105, 49, 101, 101] :=
  ⟨rfl, rfl, by decide⟩

/-- C2 (code bug, evaluated at the failing input): on a 40-byte `pieces`
string the loader returns chunks of 21 and 19 bytes (not two 20-byte
digests), and on a 30-byte `pieces` string it succeeds with chunks of 21
and 9 bytes instead of failing the `length % 20 == 0` requirement. -/
theorem c2_pieces_split_at_failing_input :
    piecesSplit (List.range 40)
      = [(List.range 40).take 21, (List.range 40).drop 21]
    ∧ (fromTorrentFile (fun _ => []) (bencode (sampleTorrent 40))).map
        (fun tf => tf.info.pieces)
      = .ok [(List.range 40).take 21, (List.range 40).drop 21]
    ∧ (fromTorrentFile (fun _ => []) (bencode (sampleTorrent 30))).map
        (fun tf => tf.info.pieces)
      = .ok [(List.range 30).take 21, (List.range 30).drop 21]
    ∧ ((List.range 40).take 21).length = 21 :=
  ⟨rfl, rfl, rfl, by decide⟩

/-- The `all_avaliable_peers` accumulator of `get_remote_peers` is
returned exactly as it entered the loop: no branch ever appends to it. -/
theorem getRemotePeersLoop_fst {α : Type} (now : Nat) :
    ∀ (ts : List (TrackerM α × Option Nat)) (acc : List α),
      (getRemotePeersLoop now ts acc).1 = acc := by
  intro ts
  induction ts with
  | nil => intro acc; rfl
  | cons hd t ih =>
    intro acc
    obtain ⟨tr, lv⟩ := hd
    simp only [getRemotePeersLoop]
    split
    · exact ih acc
    · split
      · exact ih acc
      · exact ih acc

/-- C3 (code bug, with the failing input evaluated): `get_remote_peers`
always returns the empty peers list — the fetched peers are appended to
the local `available_peers_from_tracker` list itself and never to
`all_avaliable_peers` — in particular for a fresh tracker whose fetch
succeeds with one peer, where the claim requires that peer once. -/
theorem c3_get_remote_peers_returns_empty :
    (∀ (now : Nat) (ts : List (TrackerM Nat × Option Nat)),
        (getRemotePeers now ts).1 = [])
    ∧ (getRemotePeers 0
        [({ interval := none, fetchResult := .ok [42] }, none)]).1 = [] := by
  refine ⟨fun now ts => getRemotePeersLoop_fst now ts [], ?_⟩
  rfl

/-- C6 (counterexample): the decoder accepts the malformed integers the
claim requires it to reject — `i03e` decodes to `3` (leading zero) and
`i-0e` decodes to `0` (negative zero) — because Python `int()` accepts
both spellings. -/
theorem c6_counterexample :
    pyDecode [105, 48, 51, 101] = .ok (.bint 3)
    ∧ pyDecode [105, 45, 48, 101] = .ok (.bint 0) :=
  ⟨rfl, rfl⟩

/-- C6 (amended): `i-42e` → −42 and `i0e` → 0 as claimed, and an unknown
leading byte or EOF at a value boundary raises `BencodeDecodeError`; but
`i-0e` → 0 and `i03e` → 3 (no malformed-integer rejection), a declared
byte-string length exceeding the remaining input returns the truncated
bytes without error (`5:ab` → `ab`), and EOF inside an integer (`i42`) or
inside a length field (`3`) makes `_read_until` loop forever instead of
raising. -/
theorem c6_amended :
    pyDecode [105, 45, 52, 50, 101] = .ok (.bint (-42))
    ∧ pyDecode [105, 48, 101] = .ok (.bint 0)
    ∧ pyDecode [105, 45, 48, 101] = .ok (.bint 0)
    ∧ pyDecode [105, 48, 51, 101] = .ok (.bint 3)
    ∧ pyDecode [53, 58, 97, 98] = .ok (.bbytes [97, 98])
    ∧ pyDecode [105, 52, 50] = .error .diverge
    ∧ pyDecode [51] = .error .diverge
    ∧ pyDecode [] = .error .err
    ∧ pyDecode [120] = .error .err :=
  ⟨rfl, rfl, rfl, rfl, rfl, rfl, rfl, rfl, rfl⟩

/-- Looking up the updated offset in the updated block table yields the
updated block. -/
theorem addBlock_lookup_self (offset : Nat) (data : List Nat) :
    ∀ (blocks : List (Nat × PieceBlock)) (b : PieceBlock),
      offLookup blocks offset = some b →
      offLookup (offUpdate offset data blocks) offset
        = some { b with status := .retreived, data := data } := by
  intro blocks
  induction blocks with
  | nil => intro b h; simp [offLookup] at h
  | cons hd tl ih =>
    intro b h
    obtain ⟨k, c⟩ := hd
    by_cases hk : k = offset
    · subst hk
      have hcb : c = b := by simpa [offLookup] using h
      subst hcb
      simp [offUpdate, offLookup]
    · simp only [offLookup, if_neg hk] at h
      simpa [offUpdate, offLookup, hk] using ih b h

/-- Looking up any other offset in the updated block table is
unchanged. -/
theorem addBlock_lookup_other (offset : Nat) (data : List Nat) :
    ∀ (blocks : List (Nat × PieceBlock)) (o' : Nat), o' ≠ offset →
      offLookup (offUpdate offset data blocks) o'
        = offLookup blocks o' := by
  intro blocks
  induction blocks with
  | nil => intro o' _; rfl
  | cons hd tl ih =>
    intro o' ho
    obtain ⟨k, c⟩ := hd
    by_cases hk : k = offset
    · subst hk
      have hko : ¬(k = o') := fun he => ho he.symm
      simp [offUpdate, offLookup, hko]
    · by_cases hko : k = o'
      · simp [offUpdate, offLookup, hko, hk, ho]
      · simp [offUpdate, offLookup, hko, hk, ih o' ho]

/-- C8 (amended): `add_block` leaves the piece entirely unchanged when
the offset is unknown; for a known offset it unconditionally sets the
block's status to `Retreived` and replaces its data — with no check that
the block was `Pending` — leaving every other block untouched. -/
theorem c8_add_block (blocks : List (Nat × PieceBlock)) (offset : Nat)
    (data : List Nat) :
    (offLookup blocks offset = none → addBlock blocks offset data = blocks)
    ∧ ∀ b, offLookup blocks offset = some b →
        offLookup (addBlock blocks offset data) offset
          = some { b with status := .retreived, data := data }
        ∧ ∀ o', o' ≠ offset →
            offLookup (addBlock blocks offset data) o' = offLookup blocks o' := by
  constructor
  · intro h
    simp [addBlock, h]
  · intro b h
    refine ⟨?_, fun o' ho => ?_⟩
    · simp only [addBlock, h, Option.isNone_some, Bool.false_eq_true, if_false]
      exact addBlock_lookup_self offset data blocks b h
    · simp only [addBlock, h, Option.isNone_some, Bool.false_eq_true, if_false]
      exact addBlock_lookup_other offset data blocks o' ho

/-- C8 (witness): concrete instantiation of both branches of
`c8_add_block`. -/
theorem c8_witness :
    offLookup (addBlock [(0, PieceBlock.mk 0 0 2 [97] .retreived)] 0 [98]) 0
      = some (PieceBlock.mk 0 0 2 [98] .retreived)
    ∧ addBlock [(0, PieceBlock.mk 0 0 2 [97] .retreived)] 3 [98]
      = [(0, PieceBlock.mk 0 0 2 [97] .retreived)] :=
  ⟨((c8_add_block [(0, PieceBlock.mk 0 0 2 [97] .retreived)] 0 [98]).2
      (PieceBlock.mk 0 0 2 [97] .retreived) rfl).1,
   (c8_add_block [(0, PieceBlock.mk 0 0 2 [97] .retreived)] 3 [98]).1 rfl⟩

/-- C8 (counterexample): a block that is already `Retreived` with data
`[97]` has its data replaced by a further `add_block` call at its offset —
the claim says a Retrieved block keeps its status and data. -/
theorem c8_counterexample :
    addBlock [(0, PieceBlock.mk 0 0 2 [97] .retreived)] 0 [98]
      = [(0, PieceBlock.mk 0 0 2 [98] .retreived)]
    ∧ PieceBlock.mk 0 0 2 [97] BlockStatus.retreived
      ≠ PieceBlock.mk 0 0 2 [98] BlockStatus.retreived :=
  ⟨rfl, by decide⟩

/-- C10: a piece whose stored `piece_hash` is a `str` can never verify:
`is_hash_matching` compares the SHA-1 digest, a bytes object, with `==`
against the str, and in Python `bytes == str` is always `False` —
whatever the hash function and the delivered data. -/
theorem c10_str_hash_never_matches (sha1 : List Nat → List Nat) (p : PieceM)
    (s : List Nat) (h : p.hash = .str s) : isHashMatching sha1 p = false := by
  unfold isHashMatching
  rw [h]
  rfl

/-- C10 (witness): a concrete piece with a str hash and a delivered block
fails verification. -/
theorem c10_witness :
    isHashMatching (fun _ => [1])
      (PieceM.mk 0 (.str [104]) [(0, PieceBlock.mk 0 0 1 [97] .retreived)])
      = false :=
  c10_str_hash_never_matches (fun _ => [1])
    (PieceM.mk 0 (.str [104]) [(0, PieceBlock.mk 0 0 1 [97] .retreived)]) [104] rfl

/-- C7 (counterexample): on the valid bencode input `de` (an empty
dictionary — a structural mismatch, since `info` is missing) the loader
raises `KeyError`, not `BadTorrentFile`. -/
theorem c7_counterexample :
    fromTorrentFile (fun _ => []) [100, 101] = .error .keyError
    ∧ TExc.keyError ≠ TExc.badTorrentFile :=
  ⟨rfl, by decide⟩

/-- C7 (amended): `from_torrent_file` raises `BadTorrentFile` when the
bencode decode fails with `BencodeDecodeError` or when the decoded top
level is not a dictionary (an int, byte string or list); but a dictionary
missing required keys raises an ordinary `KeyError` that escapes (shown
at the concrete input `de`). -/
theorem c7_amended :
    (∀ (sha1 : List Nat → List Nat) (input : List Nat),
        pyDecode input = .error .err →
        fromTorrentFile sha1 input = .error .badTorrentFile)
    ∧ (∀ (sha1 : List Nat → List Nat) (input : List Nat) (n : Int),
        pyDecode input = .ok (.bint n) →
        fromTorrentFile sha1 input = .error .badTorrentFile)
    ∧ (∀ (sha1 : List Nat → List Nat) (input : List Nat) (b : List Nat),
        pyDecode input = .ok (.bbytes b) →
        fromTorrentFile sha1 input = .error .badTorrentFile)
    ∧ (∀ (sha1 : List Nat → List Nat) (input : List Nat) (l : BList),
        pyDecode input = .ok (.blist l) →
        fromTorrentFile sha1 input = .error .badTorrentFile)
    ∧ fromTorrentFile (fun _ => []) [100, 101] = .error .keyError := by
  refine ⟨?_, ?_, ?_, ?_, rfl⟩
  · intro sha1 input h
    unfold fromTorrentFile
    rw [h]
  · intro sha1 input n h
    unfold fromTorrentFile
    rw [h]
  · intro sha1 input b h
    unfold fromTorrentFile
    rw [h]
  · intro sha1 input l h
    unfold fromTorrentFile
    rw [h]

/-- C7 (witness): the decode-failure and non-dictionary branches of
`c7_amended` at concrete inputs (`x` is not bencode, `i3e` decodes to the
integer 3). -/
theorem c7_witness :
    fromTorrentFile (fun _ => []) [120] = .error .badTorrentFile
    ∧ fromTorrentFile (fun _ => []) [105, 51, 101] = .error .badTorrentFile :=
  ⟨c7_amended.1 (fun _ => []) [120] rfl,
   c7_amended.2.1 (fun _ => []) [105, 51, 101] 3 rfl⟩

/-- Folding index-targeted `List.set` writes over a list never changes
its length. -/
theorem foldl_set_length (start : Nat) :
    ∀ (ps : List (Nat × Bool)) (l : List Bool),
      (ps.foldl (fun bits p => bits.set (start + p.1) p.2) l).length
        = l.length := by
  intro ps
  induction ps with
  | nil => intro l; rfl
  | cons p pt ih =>
    intro l
    simp only [List.foldl_cons]
    rw [ih]
    exact List.length_set l (start + p.1) p.2

/-- Every per-byte bit list has exactly 8 entries (the writes of
`BitField.__init__` go into a `[False] * 8` list). -/
theorem byteBits_length (b : Nat) : (byteBits b).length = 8 := by
  simp only [byteBits]
  rw [foldl_set_length]
  exact List.length_replicate 8 false

set_option maxRecDepth 4000 in
/-- For an actual byte value, the `bin(byte)[2:]` conversion of
`BitField.__init__` produces the eight bits most significant first. -/
theorem byteBits_testBit : ∀ b, b < 256 →
    byteBits b = [b.testBit 7, b.testBit 6, b.testBit 5, b.testBit 4,
      b.testBit 3, b.testBit 2, b.testBit 1, b.testBit 0] := by
  decide

/-- The bit of the concatenated lookup list at index `i` is bit
`7 - i % 8` of byte `i / 8` (MSB first within each byte). -/
theorem bitFieldLookup_get? : ∀ (raws : List Nat), (∀ x ∈ raws, x < 256) →
    ∀ (i byte : Nat), raws.get? (i / 8) = some byte →
      (bitFieldLookup raws).get? i = some (byte.testBit (7 - i % 8)) := by
  intro raws
  induction raws with
  | nil =>
    intro _ i byte h
    simp at h
  | cons r rs ih =>
    intro hlt i byte h
    have hr : r < 256 := hlt r (List.mem_cons_self r rs)
    have hflat : bitFieldLookup (r :: rs) = byteBits r ++ bitFieldLookup rs := by
      simp [bitFieldLookup]
    by_cases hi : i < 8
    · have h0 : i / 8 = 0 := Nat.div_eq_of_lt hi
      rw [h0] at h
      simp only [List.get?_cons_zero, Option.some.injEq] at h
      subst h
      rw [hflat, List.get?_append (by rw [byteBits_length]; exact hi)]
      rw [byteBits_testBit r hr]
      have hm : i % 8 = i := Nat.mod_eq_of_lt hi
      rw [hm]
      interval_cases i <;> rfl
    · have h8 : 8 ≤ i := le_of_not_lt hi
      have hq : i / 8 = (i - 8) / 8 + 1 := by omega
      rw [hq] at h
      simp only [List.get?_cons_succ] at h
      have hrec := ih (fun x hx => hlt x (List.mem_cons_of_mem r hx)) (i - 8) byte h
      rw [hflat, List.get?_append_right (by rw [byteBits_length]; exact h8)]
      rw [byteBits_length]
      rw [hrec]
      have hm : (i - 8) % 8 = i % 8 := by omega
      rw [hm]

/-- The lookup list has 8 bits per input byte. -/
theorem bitFieldLookup_length : ∀ (raws : List Nat),
    (bitFieldLookup raws).length = 8 * raws.length := by
  intro raws
  induction raws with
  | nil => rfl
  | cons r rs ih =>
    have hflat : bitFieldLookup (r :: rs) = byteBits r ++ bitFieldLookup rs := by
      simp [bitFieldLookup]
    rw [hflat, List.length_append, byteBits_length, ih, List.length_cons]
    ring

/-- C9: for byte-valued input, `have_piece` raises (a `ValueError` above
the lookup length, an `IndexError` exactly at it) precisely when the
piece index is at least `8 ×` the number of bitfield bytes, and for every
smaller index it returns bit `i` with bit `i` of byte `k` mapped
MSB-first to piece `8k + i`. -/
theorem c9_have_piece (raws : List Nat) (i : Nat) (h : ∀ x ∈ raws, x < 256) :
    ((∃ e, havePiece raws i = .error e) ↔ 8 * raws.length ≤ i)
    ∧ ∀ byte, raws.get? (i / 8) = some byte →
        havePiece raws i = .ok (byte.testBit (7 - i % 8)) := by
  have hlen := bitFieldLookup_length raws
  constructor
  · constructor
    · rintro ⟨e, he⟩
      by_contra hlt
      push_neg at hlt
      have hidx : i / 8 < raws.length := by omega
      obtain ⟨byte, hbyte⟩ : ∃ byte, raws.get? (i / 8) = some byte :=
        ⟨raws.get ⟨i / 8, hidx⟩, List.get?_eq_get hidx⟩
      have hget := bitFieldLookup_get? raws h i byte hbyte
      simp only [havePiece] at he
      rw [if_neg (by omega), hget] at he
      exact absurd he (by simp)
    · intro hge
      simp only [havePiece]
      by_cases hgt : i > (bitFieldLookup raws).length
      · rw [if_pos hgt]
        exact ⟨.valueError, rfl⟩
      · rw [if_neg hgt]
        have hnone : (bitFieldLookup raws).get? i = none := by
          rw [List.get?_eq_none]
          omega
        rw [hnone]
        exact ⟨.indexError, rfl⟩
  · intro byte hbyte
    have hidx : i / 8 < raws.length := by
      by_contra hge
      rw [List.get?_eq_none.2 (by omega)] at hbyte
      cases hbyte
    have hi : i < 8 * raws.length := by omega
    have hget := bitFieldLookup_get? raws h i byte hbyte
    simp only [havePiece]
    rw [if_neg (by omega), hget]

/-- C9 (witness): for the single bitfield byte `0b10000001` pieces 0 and
7 are present, piece 1 absent, and index 8 (= the bit count) raises. -/
theorem c9_witness :
    havePiece [129] 0 = .ok true
    ∧ havePiece [129] 7 = .ok true
    ∧ havePiece [129] 1 = .ok false
    ∧ ∃ e, havePiece [129] 8 = .error e := by
  have h : ∀ x ∈ [129], x < 256 := by decide
  refine ⟨?_, ?_, ?_, ?_⟩
  · have := (c9_have_piece [129] 0 h).2 129 rfl
    rw [this]
    exact congrArg Except.ok (by decide)
  · have := (c9_have_piece [129] 7 h).2 129 rfl
    rw [this]
    exact congrArg Except.ok (by decide)
  · have := (c9_have_piece [129] 1 h).2 129 rfl
    rw [this]
    exact congrArg Except.ok (by decide)
  · exact (c9_have_piece [129] 8 h).1.mpr (by decide)

/-- `struct.unpack('>I', struct.pack('>I', n))` recovers `n` for any
value in range. -/
theorem unpack32_pack32 (n : Nat) (h : n < 2 ^ 32) :
    unpack32 (pack32 n) = some n := by
  simp only [pack32, unpack32]
  congr 1
  omega

/-- `RawPeerMessage.from_bytes` on a well-formed encoded frame — a 4-byte
length `L ≠ 0`, an id byte `≤ 9`, and the remaining bytes — takes the
normal path: the handshake probe fails (byte 4 of the frame is the id,
never `T` (84) as `BitTorrent protocol` would require), and the payload
is the slice `raw[5:5+L]`. -/
theorem rawFromBytes_pfx (L mid : Nat) (rest : List Nat)
    (hL : L < 2 ^ 32) (hL0 : L ≠ 0) (hmid : mid ≤ 9) :
    rawFromBytes (pack32 L ++ mid :: rest)
      = .ok ⟨L, (mid : Int), rest.take L⟩ := by
  have hns : ¬((pack32 L ++ mid :: rest).length = 68
      ∧ ((pack32 L ++ mid :: rest).drop 1).take 19 = pstrBytes) := by
    rintro ⟨-, hp⟩
    have h3 := congrArg (fun l => l.get? 3) hp
    simp only at h3
    rw [List.get?_take (by norm_num), List.get?_drop] at h3
    rw [List.get?_append_right (by simp [pack32])] at h3
    simp [pack32, pstrBytes] at h3
    omega
  rw [rawFromBytes, if_neg hns]
  rw [List.take_left' (by rfl : (pack32 L).length = 4), unpack32_pack32 L hL]
  simp only [if_neg hL0]
  rw [List.drop_left' (by rfl : (pack32 L).length = 4)]
  have h5 : (pack32 L ++ mid :: rest).drop 5 = rest := by
    rw [List.append_cons, List.drop_left' (by simp [pack32])]
  rw [h5]
  simp [hmid]

/-- Round trip for `Have`. -/
theorem c4aux_have (i : Nat) (hi : i < 2 ^ 32) :
    decodeAs .tHave (pmsgEncode (.haveMsg i)) = .ok (.haveMsg i) := by
  have he : pmsgEncode (.haveMsg i) = pack32 5 ++ 4 :: pack32 i := rfl
  rw [he, decodeAs,
    rawFromBytes_pfx 5 4 (pack32 i) (by norm_num) (by norm_num) (by norm_num)]
  show decodeFromRaw .tHave ⟨5, 4, (pack32 i).take 5⟩ = .ok (.haveMsg i)
  have hp : (pack32 i).take 5 = pack32 i := rfl
  simp only [decodeFromRaw, ptypeId, hp, unpack32_pack32 i hi]
  norm_num

/-- Round trip for `BitField`. -/
theorem c4aux_bitfield (raw : List Nat) (hr : raw.length + 1 < 2 ^ 32) :
    decodeAs .tBitField (pmsgEncode (.bitField raw)) = .ok (.bitField raw) := by
  have he : pmsgEncode (.bitField raw) = pack32 (raw.length + 1) ++ 5 :: raw := rfl
  rw [he, decodeAs,
    rawFromBytes_pfx (raw.length + 1) 5 raw hr (by omega) (by norm_num)]
  show decodeFromRaw .tBitField ⟨raw.length + 1, 5, raw.take (raw.length + 1)⟩
      = .ok (.bitField raw)
  have hp : raw.take (raw.length + 1) = raw := List.take_of_length_le (by omega)
  simp only [decodeFromRaw, ptypeId, hp]
  norm_num

/-- Round trip for `Request`. -/
theorem c4aux_request (i b l : Nat) (hi : i < 2 ^ 32) (hb : b < 2 ^ 32)
    (hl : l < 2 ^ 32) :
    decodeAs .tRequest (pmsgEncode (.request i b l)) = .ok (.request i b l) := by
  have he : pmsgEncode (.request i b l)
      = pack32 13 ++ 6 :: (pack32 i ++ pack32 b ++ pack32 l) := by
    simp [pmsgEncode]
  rw [he, decodeAs,
    rawFromBytes_pfx 13 6 (pack32 i ++ pack32 b ++ pack32 l)
      (by norm_num) (by norm_num) (by norm_num)]
  show decodeFromRaw .tRequest
      ⟨13, 6, (pack32 i ++ pack32 b ++ pack32 l).take 13⟩ = .ok (.request i b l)
  have hp : (pack32 i ++ pack32 b ++ pack32 l).take 13
      = pack32 i ++ pack32 b ++ pack32 l :=
    List.take_of_length_le (by simp [pack32])
  have hiii : unpackIII (pack32 i ++ pack32 b ++ pack32 l) = some (i, b, l) := by
    unfold unpackIII
    rw [if_pos (by simp [pack32])]
    rw [List.append_assoc, List.take_left' (by rfl : (pack32 i).length = 4),
      List.drop_left' (by rfl : (pack32 i).length = 4),
      List.take_left' (by rfl : (pack32 b).length = 4)]
    rw [show (pack32 i ++ (pack32 b ++ pack32 l)).drop 8
        = pack32 l from by
      rw [← List.append_assoc, List.drop_left' (by simp [pack32])]]
    rw [unpack32_pack32 i hi, unpack32_pack32 b hb, unpack32_pack32 l hl]
  simp only [decodeFromRaw, ptypeId, hp, hiii]
  norm_num

/-- Round trip for `Piece`. -/
theorem c4aux_piece (i b : Nat) (blk : List Nat) (hi : i < 2 ^ 32)
    (hb : b < 2 ^ 32) (hblk : 9 + blk.length < 2 ^ 32) :
    decodeAs .tPiece (pmsgEncode (.piece i b blk)) = .ok (.piece i b blk) := by
  have he : pmsgEncode (.piece i b blk)
      = pack32 (9 + blk.length) ++ 7 :: (pack32 i ++ pack32 b ++ blk) := by
    simp [pmsgEncode]
  rw [he, decodeAs,
    rawFromBytes_pfx (9 + blk.length) 7 (pack32 i ++ pack32 b ++ blk)
      hblk (by omega) (by norm_num)]
  show decodeFromRaw .tPiece
      ⟨9 + blk.length, 7, (pack32 i ++ pack32 b ++ blk).take (9 + blk.length)⟩
      = .ok (.piece i b blk)
  have hp : (pack32 i ++ pack32 b ++ blk).take (9 + blk.length)
      = pack32 i ++ pack32 b ++ blk :=
    List.take_of_length_le (by simp [pack32]; omega)
  have h4 : (pack32 i ++ pack32 b ++ blk).take 4 = pack32 i := by
    rw [List.append_assoc, List.take_left' (by rfl : (pack32 i).length = 4)]
  have h44 : ((pack32 i ++ pack32 b ++ blk).drop 4).take 4 = pack32 b := by
    rw [List.append_assoc, List.drop_left' (by rfl : (pack32 i).length = 4),
      List.take_left' (by rfl : (pack32 b).length = 4)]
  have h8 : (pack32 i ++ pack32 b ++ blk).drop 8 = blk := by
    rw [List.drop_left' (by simp [pack32])]
  simp only [decodeFromRaw, ptypeId, hp, h4, h44, h8, unpack32_pack32 i hi,
    unpack32_pack32 b hb]
  norm_num

/-- Round trip for `Cancel`. -/
theorem c4aux_cancel (i b l : Nat) (hi : i < 2 ^ 32) (hb : b < 2 ^ 32)
    (hl : l < 2 ^ 32) :
    decodeAs .tCancel (pmsgEncode (.cancel i b l)) = .ok (.cancel i b l) := by
  have he : pmsgEncode (.cancel i b l)
      = pack32 13 ++ 8 :: (pack32 i ++ pack32 b ++ pack32 l) := by
    simp [pmsgEncode]
  rw [he, decodeAs,
    rawFromBytes_pfx 13 8 (pack32 i ++ pack32 b ++ pack32 l)
      (by norm_num) (by norm_num) (by norm_num)]
  show decodeFromRaw .tCancel
      ⟨13, 8, (pack32 i ++ pack32 b ++ pack32 l).take 13⟩ = .ok (.cancel i b l)
  have hp : (pack32 i ++ pack32 b ++ pack32 l).take 13
      = pack32 i ++ pack32 b ++ pack32 l :=
    List.take_of_length_le (by simp [pack32])
  have hiii : unpackIII (pack32 i ++ pack32 b ++ pack32 l) = some (i, b, l) := by
    unfold unpackIII
    rw [if_pos (by simp [pack32])]
    rw [List.append_assoc, List.take_left' (by rfl : (pack32 i).length = 4),
      List.drop_left' (by rfl : (pack32 i).length = 4),
      List.take_left' (by rfl : (pack32 b).length = 4)]
    rw [show (pack32 i ++ (pack32 b ++ pack32 l)).drop 8
        = pack32 l from by
      rw [← List.append_assoc, List.drop_left' (by simp [pack32])]]
    rw [unpack32_pack32 i hi, unpack32_pack32 b hb, unpack32_pack32 l hl]
  simp only [decodeFromRaw, ptypeId, hp, hiii]
  norm_num

/-- The `Port` decode failure: `encode` declares length 3 but packs the
port as 4 bytes, so `from_bytes` keeps only 3 payload bytes and
`struct.unpack('>I', ...)` raises `struct.error`. -/
theorem c4aux_port (p : Nat) (_hp : p < 2 ^ 32) :
    decodeAs .tPort (pmsgEncode (.port p)) = .error .structError := by
  have he : pmsgEncode (.port p) = pack32 3 ++ 9 :: pack32 p := rfl
  rw [he, decodeAs,
    rawFromBytes_pfx 3 9 (pack32 p) (by norm_num) (by norm_num) (by norm_num)]
  rfl

/-- C4 (code bug, with the failing message type evaluated): ten of the
eleven message types round-trip — `decode(encode(M)) = M` for KeepAlive,
Choke, Unchoke, Interested, NotInterested, Have, BitField, Request,
Piece and Cancel with in-range fields — but every `Port` message fails to
decode with `struct.error`: `Port.encode` declares length 3 while packing
a 4-byte `>I` port, so `from_bytes` truncates the payload to 3 bytes and
`Port.decode_from_raw` cannot unpack it. -/
theorem c4_frame_roundtrip_with_port_bug :
    decodeAs .tKeepAlive (pmsgEncode .keepAlive) = .ok .keepAlive
    ∧ decodeAs .tChoke (pmsgEncode .choke) = .ok .choke
    ∧ decodeAs .tUnchoke (pmsgEncode .unchoke) = .ok .unchoke
    ∧ decodeAs .tInterested (pmsgEncode .interested) = .ok .interested
    ∧ decodeAs .tNotInterested (pmsgEncode .notInterested) = .ok .notInterested
    ∧ (∀ i, i < 2 ^ 32 →
        decodeAs .tHave (pmsgEncode (.haveMsg i)) = .ok (.haveMsg i))
    ∧ (∀ raw : List Nat, raw.length + 1 < 2 ^ 32 →
        decodeAs .tBitField (pmsgEncode (.bitField raw)) = .ok (.bitField raw))
    ∧ (∀ i b l, i < 2 ^ 32 → b < 2 ^ 32 → l < 2 ^ 32 →
        decodeAs .tRequest (pmsgEncode (.request i b l)) = .ok (.request i b l))
    ∧ (∀ i b blk, i < 2 ^ 32 → b < 2 ^ 32 → 9 + List.length blk < 2 ^ 32 →
        decodeAs .tPiece (pmsgEncode (.piece i b blk)) = .ok (.piece i b blk))
    ∧ (∀ i b l, i < 2 ^ 32 → b < 2 ^ 32 → l < 2 ^ 32 →
        decodeAs .tCancel (pmsgEncode (.cancel i b l)) = .ok (.cancel i b l))
    ∧ (∀ p, p < 2 ^ 32 →
        decodeAs .tPort (pmsgEncode (.port p)) = .error .structError) :=
  ⟨rfl, rfl, rfl, rfl, rfl, c4aux_have, c4aux_bitfield, c4aux_request,
   c4aux_piece, c4aux_cancel, c4aux_port⟩

/-- C4 (witness): the quantified conjuncts of
`c4_frame_roundtrip_with_port_bug` instantiated at concrete messages. -/
theorem c4_witness :
    decodeAs .tHave (pmsgEncode (.haveMsg 1234)) = .ok (.haveMsg 1234)
    ∧ decodeAs .tBitField (pmsgEncode (.bitField [129, 7])) = .ok (.bitField [129, 7])
    ∧ decodeAs .tRequest (pmsgEncode (.request 1 2 3)) = .ok (.request 1 2 3)
    ∧ decodeAs .tPiece (pmsgEncode (.piece 1 2 [9, 8, 7])) = .ok (.piece 1 2 [9, 8, 7])
    ∧ decodeAs .tCancel (pmsgEncode (.cancel 1 2 3)) = .ok (.cancel 1 2 3)
    ∧ decodeAs .tPort (pmsgEncode (.port 6881)) = .error .structError :=
  ⟨c4_frame_roundtrip_with_port_bug.2.2.2.2.2.1 1234 (by norm_num),
   c4_frame_roundtrip_with_port_bug.2.2.2.2.2.2.1 [129, 7] (by norm_num),
   c4_frame_roundtrip_with_port_bug.2.2.2.2.2.2.2.1 1 2 3
     (by norm_num) (by norm_num) (by norm_num),
   c4_frame_roundtrip_with_port_bug.2.2.2.2.2.2.2.2.1 1 2 [9, 8, 7]
     (by norm_num) (by norm_num) (by norm_num),
   c4_frame_roundtrip_with_port_bug.2.2.2.2.2.2.2.2.2.1 1 2 3
     (by norm_num) (by norm_num) (by norm_num),
   c4_frame_roundtrip_with_port_bug.2.2.2.2.2.2.2.2.2.2 6881 (by norm_num)⟩

/-- With fuel above `n`, the base-10 digit list is nonempty, all digits
are below 10, and evaluating them most-significant-first recovers `n`. -/
theorem natDigitsGo_ten : ∀ (f : Nat), ∀ n, n < f →
    natDigitsGo 10 f n ≠ []
    ∧ (∀ d ∈ natDigitsGo 10 f n, d < 10)
    ∧ (natDigitsGo 10 f n).foldl (fun a d => a * 10 + d) 0 = n := by
  intro f
  induction f with
  | zero => intro n h; omega
  | succ f ih =>
    intro n hn
    rw [natDigitsGo]
    by_cases h10 : n < 10
    · rw [if_pos h10]
      refine ⟨by simp, ?_, by simp⟩
      intro d hd
      simp at hd
      omega
    · rw [if_neg h10]
      have hrec := ih (n / 10) (by omega)
      refine ⟨by simp, ?_, ?_⟩
      · intro d hd
        rcases List.mem_append.1 hd with h | h
        · exact hrec.2.1 d h
        · simp at h; omega
      · rw [List.foldl_append, hrec.2.2]
        simp
        omega

/-- The three `natDigitsGo_ten` facts for `natDecDigits`. -/
theorem natDecDigits_spec (n : Nat) :
    natDecDigits n ≠ []
    ∧ (∀ d ∈ natDecDigits n, d < 10)
    ∧ (natDecDigits n).foldl (fun a d => a * 10 + d) 0 = n :=
  natDigitsGo_ten (n + 1) n (by omega)

/-- `str(n)` is never empty. -/
theorem natDecBytes_ne_nil (n : Nat) : natDecBytes n ≠ [] := by
  unfold natDecBytes
  simp [(natDecDigits_spec n).1]

/-- Every byte of `str(n)` is an ASCII digit. -/
theorem natDecBytes_mem (n : Nat) : ∀ c ∈ natDecBytes n, 48 ≤ c ∧ c ≤ 57 := by
  intro c hc
  unfold natDecBytes at hc
  obtain ⟨d, hd, rfl⟩ := List.mem_map.1 hc
  have := (natDecDigits_spec n).2.1 d hd
  omega

/-- The digit-run parser evaluates a run of ASCII digits. -/
theorem pyDigitsGo_digits : ∀ (ds : List Nat), (∀ d ∈ ds, d < 10) → ∀ acc,
    pyDigitsGo (ds.map (· + 48)) acc
      = some (ds.foldl (fun a d => a * 10 + d) acc) := by
  intro ds
  induction ds with
  | nil => intro _ acc; rfl
  | cons d dt ih =>
    intro h acc
    have hd : d < 10 := h d (List.mem_cons_self d dt)
    rw [List.map_cons]
    rw [show pyDigitsGo ((d + 48) :: dt.map (· + 48)) acc
        = if isPyDigit (d + 48) then pyDigitsGo (dt.map (· + 48)) (acc * 10 + (d + 48 - 48))
          else if d + 48 = 95 then
            (match dt.map (· + 48) with
              | e :: _ => if isPyDigit e then pyDigitsGo (dt.map (· + 48)) acc else none
              | [] => none)
          else none from rfl]
    rw [if_pos (show isPyDigit (d + 48) = true by simp [isPyDigit]; omega)]
    have h48 : acc * 10 + (d + 48 - 48) = acc * 10 + d := by omega
    rw [h48, ih (fun x hx => h x (List.mem_cons_of_mem d hx)) (acc * 10 + d)]
    rfl

/-- Parsing the ASCII bytes of `str(n)` as a digit run gives `n` back. -/
theorem pyDigits_natDecBytes (n : Nat) : pyDigits (natDecBytes n) = some n := by
  obtain ⟨hne, hlt, hval⟩ := natDecDigits_spec n
  obtain ⟨d, dt, hds⟩ := List.exists_cons_of_ne_nil hne
  have hd : d < 10 := hlt d (by rw [hds]; exact List.mem_cons_self d dt)
  unfold natDecBytes
  rw [hds, List.map_cons, pyDigits]
  rw [if_pos (show isPyDigit (d + 48) = true by simp [isPyDigit]; omega)]
  have h48 : d + 48 - 48 = d := by omega
  rw [h48, pyDigitsGo_digits dt (fun x hx => hlt x (by rw [hds]; exact List.mem_cons_of_mem d hx)) d]
  rw [hds] at hval
  simp only [List.foldl_cons] at hval
  simp at hval ⊢
  exact hval

/-- `dropWhile` is the identity when no element satisfies the predicate. -/
theorem dropWhile_eq_self_of (p : Nat → Bool) :
    ∀ (l : List Nat), (∀ c ∈ l, p c = false) → l.dropWhile p = l := by
  intro l h
  cases l with
  | nil => rfl
  | cons c t =>
    rw [List.dropWhile_cons, h c (List.mem_cons_self c t)]
    simp

/-- Stripping is the identity on whitespace-free byte strings. -/
theorem pyStrip_eq (s : List Nat) (h : ∀ c ∈ s, isPySpace c = false) :
    pyStrip s = s := by
  unfold pyStrip
  rw [dropWhile_eq_self_of _ s h]
  rw [dropWhile_eq_self_of _ s.reverse (fun c hc => h c (List.mem_reverse.1 hc))]
  exact List.reverse_reverse s

/-- Every byte of `str(v)` is the minus sign or an ASCII digit. -/
theorem intDecBytes_mem (v : Int) :
    ∀ c ∈ intDecBytes v, c = 45 ∨ (48 ≤ c ∧ c ≤ 57) := by
  intro c hc
  cases v with
  | ofNat n => exact Or.inr (natDecBytes_mem n c hc)
  | negSucc m =>
    rcases List.mem_cons.1 hc with rfl | h
    · exact Or.inl rfl
    · exact Or.inr (natDecBytes_mem (m + 1) c h)

/-- Python `int(str(n))` is `n` for a natural number. -/
theorem pyIntOfBytes_natDecBytes (n : Nat) :
    pyIntOfBytes (natDecBytes n) = some (n : Int) := by
  have hns : ∀ c ∈ natDecBytes n, isPySpace c = false := by
    intro c hc
    have := natDecBytes_mem n c hc
    simp [isPySpace]
    omega
  obtain ⟨d, dt, hds⟩ := List.exists_cons_of_ne_nil (natDecBytes_ne_nil n)
  have hd : 48 ≤ d ∧ d ≤ 57 :=
    natDecBytes_mem n d (by rw [hds]; exact List.mem_cons_self d dt)
  unfold pyIntOfBytes
  rw [pyStrip_eq _ hns, hds]
  split
  · rename_i heq
    rw [List.cons.injEq] at heq
    omega
  · rename_i heq
    rw [List.cons.injEq] at heq
    omega
  · rw [← hds, pyDigits_natDecBytes]
    rfl

/-- Python `int(str(v))` is `v` for any integer — the encoder writes
integers in a form the decoder's `int()` parses back exactly. -/
theorem pyIntOfBytes_intDecBytes (v : Int) :
    pyIntOfBytes (intDecBytes v) = some v := by
  cases v with
  | ofNat n => exact pyIntOfBytes_natDecBytes n
  | negSucc m =>
    have hns : ∀ c ∈ intDecBytes (.negSucc m), isPySpace c = false := by
      intro c hc
      rcases intDecBytes_mem _ c hc with rfl | h
      · rfl
      · simp [isPySpace]; omega
    unfold pyIntOfBytes
    rw [pyStrip_eq _ hns]
    show (match (45 :: natDecBytes (m + 1) : List Nat) with
      | 43 :: rest => (pyDigits rest).map (fun n => (n : Int))
      | 45 :: rest => (pyDigits rest).map (fun n => -(n : Int))
      | _ => (pyDigits (intDecBytes (.negSucc m))).map (fun n => (n : Int)))
      = some (.negSucc m)
    split
    · rename_i heq
      rw [List.cons.injEq] at heq
      omega
    · rename_i rest heq
      rw [List.cons.injEq] at heq
      rw [← heq.2, pyDigits_natDecBytes]
      simp [Int.negSucc_eq]
    · rename_i hne1 hne2
      exact absurd rfl (hne2 (natDecBytes (m + 1)))

/-- `_read_until` consumes exactly up to the first separator byte. -/
theorem pyReadUntil_append (sep : Nat) : ∀ (s rest : List Nat), sep ∉ s →
    pyReadUntil sep (s ++ sep :: rest) = some (s, rest) := by
  intro s
  induction s with
  | nil =>
    intro rest _
    simp [pyReadUntil]
  | cons c t ih =>
    intro rest h
    have hc : ¬(c = sep) := fun he => h (by rw [he]; exact List.mem_cons_self sep t)
    rw [List.cons_append, pyReadUntil, if_neg hc]
    rw [ih rest (fun hm => h (List.mem_cons_of_mem c hm))]

/-- Key encoding agrees with value encoding of the key object. -/
theorem bencodeKey_eq (k : BKey) : bencodeKey k = bencode (keyToVal k) := by
  cases k <;> rfl

/-- Every encoded value starts with a byte that is not `e` (101): `i`,
`l`, `d` or an ASCII digit. -/
theorem bencode_head (V : BValue) :
    ∃ hd tl, bencode V = hd :: tl ∧ hd ≠ 101 := by
  cases V with
  | bint n => exact ⟨105, intDecBytes n ++ [101], rfl, by norm_num⟩
  | bbytes b =>
    obtain ⟨c, r, hds⟩ := List.exists_cons_of_ne_nil (natDecBytes_ne_nil b.length)
    have hc := natDecBytes_mem b.length c (by rw [hds]; exact List.mem_cons_self c r)
    refine ⟨c, r ++ 58 :: b, ?_, by omega⟩
    show natDecBytes b.length ++ 58 :: b = c :: (r ++ 58 :: b)
    rw [hds]
    rfl
  | blist l => exact ⟨108, bencodeList l ++ [101], rfl, by norm_num⟩
  | bdict d => exact ⟨100, bencodeDict d ++ [101], rfl, by norm_num⟩

/-- An encoded value is never empty. -/
theorem bencode_length_pos (V : BValue) : 1 ≤ (bencode V).length := by
  obtain ⟨hd, tl, hds, -⟩ := bencode_head V
  rw [hds]
  simp

/-- An encoded key is never empty. -/
theorem bencodeKey_length_pos (k : BKey) : 1 ≤ (bencodeKey k).length := by
  rw [bencodeKey_eq]
  exact bencode_length_pos (keyToVal k)

/-- `_decode_int` on an encoded integer consumes it and returns its
value. -/
theorem decVal_int (n : Int) (f : Nat) (rest : List Nat) (hf : 1 ≤ f) :
    decodeVal f 105 ((intDecBytes n ++ [101]) ++ rest) = .ok (.bint n, rest) := by
  obtain ⟨f', rfl⟩ : ∃ f', f = f' + 1 := ⟨f - 1, by omega⟩
  rw [decodeVal, if_pos rfl]
  have hne : (101 : Nat) ∉ intDecBytes n := by
    intro hm
    rcases intDecBytes_mem n 101 hm with h | h <;> omega
  rw [show (intDecBytes n ++ [101]) ++ rest = intDecBytes n ++ 101 :: rest by simp]
  rw [pyReadUntil_append 101 (intDecBytes n) rest hne]
  simp only [pyIntOfBytes_intDecBytes]

/-- `_decode_bytes` on an encoded byte string consumes it and returns its
content. -/
theorem decVal_bytes (b : List Nat) (f : Nat) (rest : List Nat) (hf : 1 ≤ f)
    (hd : Nat) (tlb : List Nat) (hds : natDecBytes b.length = hd :: tlb) :
    decodeVal f hd ((tlb ++ 58 :: b) ++ rest) = .ok (.bbytes b, rest) := by
  obtain ⟨f', rfl⟩ : ∃ f', f = f' + 1 := ⟨f - 1, by omega⟩
  have hd48 : 48 ≤ hd ∧ hd ≤ 57 :=
    natDecBytes_mem b.length hd (by rw [hds]; exact List.mem_cons_self hd tlb)
  rw [decodeVal]
  rw [if_neg (by omega), if_neg (by omega), if_neg (by omega)]
  rw [if_pos (show isPyDigit hd = true by simp [isPyDigit]; omega)]
  have hne : (58 : Nat) ∉ tlb := by
    intro hm
    have := natDecBytes_mem b.length 58 (by rw [hds]; exact List.mem_cons_of_mem hd hm)
    omega
  rw [show (tlb ++ 58 :: b) ++ rest = tlb ++ 58 :: (b ++ rest) by simp]
  rw [pyReadUntil_append 58 tlb (b ++ rest) hne]
  simp only [← hds, pyIntOfBytes_natDecBytes, Int.toNat_natCast,
    List.take_left, List.drop_left]

/-- A decoded key object is hashable and converts back to the key. -/
theorem toKey_keyToVal (k : BKey) : toKey (keyToVal k) = some k := by
  cases k <;> rfl

/-- Decoding an encoded dictionary key yields the key object. -/
theorem decVal_key (k : BKey) (f : Nat) (rest : List Nat) (hf : 1 ≤ f)
    (hd : Nat) (tl : List Nat) (hds : bencodeKey k = hd :: tl) :
    decodeVal f hd (tl ++ rest) = .ok (keyToVal k, rest) := by
  cases k with
  | kint n =>
    rw [bencodeKey] at hds
    rw [List.cons.injEq] at hds
    rw [← hds.1, ← hds.2]
    exact decVal_int n f rest hf
  | kbytes b =>
    obtain ⟨c, r, hnb⟩ := List.exists_cons_of_ne_nil (natDecBytes_ne_nil b.length)
    rw [bencodeKey, hnb] at hds
    rw [List.cons_append, List.cons.injEq] at hds
    rw [← hds.1, ← hds.2]
    exact decVal_bytes b _ rest hf c r hnb

/-- Appending the empty dictionary on the right changes nothing. -/
theorem dappend_dnil : ∀ (acc : BDict), dappend acc .dnil = acc
  | .dnil => rfl
  | .dcons k v tl => by rw [dappend, dappend_dnil tl]
termination_by structural acc => acc

/-- Keys of an appended dictionary. -/
theorem dictKeys_dappend : ∀ (a b : BDict),
    dictKeys (dappend a b) = dictKeys a ++ dictKeys b
  | .dnil, b => rfl
  | .dcons k v tl, b => by
    rw [dappend, dictKeys, dictKeys, dictKeys_dappend tl b, List.cons_append]
termination_by structural a => a

/-- Dictionary append is associative. -/
theorem dappend_assoc : ∀ (a b c : BDict),
    dappend (dappend a b) c = dappend a (dappend b c)
  | .dnil, _, _ => rfl
  | .dcons k v tl, b, c => by
    rw [dappend, dappend, dappend, dappend_assoc tl b c]
termination_by structural a => a

/-- `OrderedDict` assignment with a fresh key appends the entry at the
end. -/
theorem ordInsert_fresh : ∀ (acc : BDict) (k : BKey) (v : BValue),
    k ∉ dictKeys acc → ordInsert acc k v = dappend acc (.dcons k v .dnil)
  | .dnil, k, v => fun _ => rfl
  | .dcons k' v' tl, k, v => fun h => by
    have hk : ¬(k' = k) := by
      intro he
      exact h (by rw [dictKeys, he]; exact List.mem_cons_self k (dictKeys tl))
    rw [ordInsert, if_neg hk, dappend,
      ordInsert_fresh tl k v (fun hm => h (by rw [dictKeys]; exact List.mem_cons_of_mem k' hm))]
termination_by structural acc => acc

mutual
/-- Decoding the encoding of a well-formed value, with any fuel at least
the encoded length, consumes exactly the encoded bytes and returns the
value. -/
theorem decVal_enc : ∀ (V : BValue), WFb V = true →
    ∀ (f : Nat) (rest : List Nat) (hd : Nat) (tl : List Nat),
      (bencode V).length ≤ f → bencode V = hd :: tl →
      decodeVal f hd (tl ++ rest) = .ok (V, rest)
  | .bint n => fun _ f rest hd tl hlen hds => by
    rw [show bencode (.bint n) = 105 :: (intDecBytes n ++ [101]) from rfl,
      List.cons.injEq] at hds
    rw [show bencode (.bint n) = 105 :: (intDecBytes n ++ [101]) from rfl] at hlen
    simp only [List.length_cons] at hlen
    rw [← hds.1, ← hds.2]
    exact decVal_int n f rest (by omega)
  | .bbytes b => fun _ f rest hd tl hlen hds => by
    obtain ⟨c, r, hnb⟩ := List.exists_cons_of_ne_nil (natDecBytes_ne_nil b.length)
    rw [show bencode (.bbytes b) = natDecBytes b.length ++ 58 :: b from rfl,
      hnb, List.cons_append, List.cons.injEq] at hds
    rw [show bencode (.bbytes b) = natDecBytes b.length ++ 58 :: b from rfl,
      hnb] at hlen
    simp only [List.cons_append, List.length_cons] at hlen
    rw [← hds.1, ← hds.2]
    exact decVal_bytes b f rest (by omega) c r hnb
  | .blist l => fun hWF f rest hd tl hlen hds => by
    rw [show bencode (.blist l) = 108 :: (bencodeList l ++ [101]) from rfl,
      List.cons.injEq] at hds
    rw [show bencode (.blist l) = 108 :: (bencodeList l ++ [101]) from rfl] at hlen
    simp only [List.length_cons, List.length_append, List.length_singleton] at hlen
    obtain ⟨f', rfl⟩ : ∃ f', f = f' + 1 := ⟨f - 1, by omega⟩
    rw [← hds.1, ← hds.2]
    rw [decodeVal, if_neg (by norm_num), if_pos rfl]
    rw [show (bencodeList l ++ [101]) ++ rest = bencodeList l ++ 101 :: rest by simp]
    have hWFl : WFbL l = true := hWF
    rw [decList_enc l hWFl f' rest (by omega)]
  | .bdict d => fun hWF f rest hd tl hlen hds => by
    rw [show bencode (.bdict d) = 100 :: (bencodeDict d ++ [101]) from rfl,
      List.cons.injEq] at hds
    rw [show bencode (.bdict d) = 100 :: (bencodeDict d ++ [101]) from rfl] at hlen
    simp only [List.length_cons, List.length_append, List.length_singleton] at hlen
    obtain ⟨f', rfl⟩ : ∃ f', f = f' + 1 := ⟨f - 1, by omega⟩
    rw [← hds.1, ← hds.2]
    rw [decodeVal, if_neg (by norm_num), if_neg (by norm_num), if_pos rfl]
    rw [show (bencodeDict d ++ [101]) ++ rest = bencodeDict d ++ 101 :: rest by simp]
    have hWF' : decide (dictKeys d).Nodup = true ∧ WFbD d = true := by
      simpa only [Bool.and_eq_true] using
        (show (decide (dictKeys d).Nodup && WFbD d) = true from hWF)
    rw [decDict_enc d hWF'.2 (of_decide_eq_true hWF'.1) f' .dnil rest
      (by intro k hk; simp [dictKeys] at hk) (by omega)]
    rfl
termination_by structural V => V

/-- The `_decode_list` loop consumes an encoded item sequence up to the
closing `e` and returns the items in order. -/
theorem decList_enc : ∀ (l : BList), WFbL l = true →
    ∀ (f : Nat) (rest : List Nat), (bencodeList l).length + 1 ≤ f →
      decodeListLoop f (bencodeList l ++ 101 :: rest) = .ok (l, rest)
  | .nil => fun _ f rest hf => by
    obtain ⟨f', rfl⟩ : ∃ f', f = f' + 1 := ⟨f - 1, by omega⟩
    rw [show bencodeList .nil = ([] : List Nat) from rfl, List.nil_append,
      decodeListLoop]
    rw [if_pos rfl]
  | .cons v tl => fun hWF f rest hf => by
    have hWF' : WFb v = true ∧ WFbL tl = true := by
      simpa only [Bool.and_eq_true] using (show (WFb v && WFbL tl) = true from hWF)
    rw [show bencodeList (.cons v tl) = bencode v ++ bencodeList tl from rfl] at hf ⊢
    simp only [List.length_append] at hf
    obtain ⟨f', rfl⟩ : ∃ f', f = f' + 1 := ⟨f - 1, by omega⟩
    obtain ⟨hd, tlv, hds, h101⟩ := bencode_head v
    have hlenv := bencode_length_pos v
    rw [List.append_assoc, hds, List.cons_append, decodeListLoop, if_neg h101]
    rw [decVal_enc v hWF'.1 f' (bencodeList tl ++ 101 :: rest) hd tlv
      (by omega) hds]
    simp only [decList_enc tl hWF'.2 f' rest (by omega)]
termination_by structural l => l

/-- The `_decode_dict` loop consumes encoded entries up to the closing
`e`; with distinct keys (all fresh for the accumulator), the `OrderedDict`
insertions append the entries in encounter order. -/
theorem decDict_enc : ∀ (d : BDict), WFbD d = true → (dictKeys d).Nodup →
    ∀ (f : Nat) (acc : BDict) (rest : List Nat),
      (∀ k ∈ dictKeys acc, k ∉ dictKeys d) →
      (bencodeDict d).length + 1 ≤ f →
      decodeDictLoop f acc (bencodeDict d ++ 101 :: rest)
        = .ok (dappend acc d, rest)
  | .dnil => fun _ _ f acc rest _ hf => by
    obtain ⟨f', rfl⟩ : ∃ f', f = f' + 1 := ⟨f - 1, by omega⟩
    rw [show bencodeDict .dnil = ([] : List Nat) from rfl, List.nil_append,
      decodeDictLoop]
    rw [if_pos rfl, dappend_dnil]
  | .dcons k v tl => fun hWF hnd f acc rest hdisj hf => by
    have hWF' : WFb v = true ∧ WFbD tl = true := by
      simpa only [Bool.and_eq_true] using (show (WFb v && WFbD tl) = true from hWF)
    have hndc := List.nodup_cons.1 (show (k :: dictKeys tl).Nodup from hnd)
    have hkmem : k ∈ dictKeys (.dcons k v tl) := List.mem_cons_self k (dictKeys tl)
    have htlmem : ∀ k', k' ∈ dictKeys tl → k' ∈ dictKeys (.dcons k v tl) :=
      fun k' h => List.mem_cons_of_mem k h
    rw [show bencodeDict (.dcons k v tl)
        = bencodeKey k ++ bencode v ++ bencodeDict tl from rfl] at hf ⊢
    simp only [List.length_append] at hf
    obtain ⟨f', rfl⟩ : ∃ f', f = f' + 1 := ⟨f - 1, by omega⟩
    obtain ⟨hdk, tlk, hdsk, h101k⟩ : ∃ hd tl, bencodeKey k = hd :: tl ∧ hd ≠ 101 := by
      rw [bencodeKey_eq]
      exact bencode_head (keyToVal k)
    have hlenk := bencodeKey_length_pos k
    have hlenv := bencode_length_pos v
    rw [List.append_assoc, List.append_assoc, hdsk, List.cons_append,
      decodeDictLoop, if_neg h101k]
    rw [decVal_key k f' (bencode v ++ (bencodeDict tl ++ 101 :: rest)) (by omega)
      hdk tlk hdsk]
    obtain ⟨hdv, tlv, hdsv, -⟩ := bencode_head v
    rw [hdsv, List.cons_append]
    simp only [decVal_enc v hWF'.1 f' (bencodeDict tl ++ 101 :: rest) hdv tlv
      (by omega) hdsv]
    simp only [toKey_keyToVal]
    have hknotacc : k ∉ dictKeys acc := fun hm => hdisj k hm hkmem
    rw [decDict_enc tl hWF'.2 hndc.2 f' (ordInsert acc k v) rest ?hdisj (by omega)]
    case hdisj =>
      intro k' hk'
      rw [ordInsert_fresh acc k v hknotacc, dictKeys_dappend] at hk'
      rcases List.mem_append.1 hk' with h | h
      · exact fun hm => hdisj k' h (htlmem k' hm)
      · simp [dictKeys] at h
        rw [h]
        exact hndc.1
    rw [ordInsert_fresh acc k v hknotacc, dappend_assoc]
    rfl
termination_by structural d => d
end

/-- C5: for every well-formed bencode value (every dictionary having
distinct keys, as any Python dict does), decoding the encoder's output
returns the value itself — entry order included, which implies equality
modulo dictionary key ordering — and hence re-encoding the decoded value
reproduces the encoded bytes (encoding is canonical). -/
theorem c5_roundtrip (V : BValue) (h : WFb V = true) :
    pyDecode (bencode V) = .ok V
    ∧ ∀ W, pyDecode (bencode V) = .ok W → bencode W = bencode V := by
  have main : pyDecode (bencode V) = .ok V := by
    obtain ⟨hd, tl, hds, -⟩ := bencode_head V
    unfold pyDecode pyDecodeF
    rw [hds]
    show (decodeVal ((hd :: tl).length + 1) hd tl).map (fun p => p.1) = .ok V
    have hstep := decVal_enc V h ((hd :: tl).length + 1) [] hd tl
      (by rw [hds]; omega) hds
    rw [List.append_nil] at hstep
    rw [hstep]
    rfl
  refine ⟨main, fun W hW => ?_⟩
  rw [main] at hW
  injection hW with h2
  rw [h2]

/-- C5 (witness): the spec's example dictionary `{cow: moo, spam: eggs}`
round-trips. -/
theorem c5_witness :
    WFb (.bdict (.dcons (.kbytes [99, 111, 119]) (.bbytes [109, 111, 111])
        (.dcons (.kbytes [115, 112, 97, 109]) (.bbytes [101, 103, 103, 115])
          .dnil))) = true
    ∧ pyDecode (bencode (.bdict (.dcons (.kbytes [99, 111, 119]) (.bbytes [109, 111, 111])
        (.dcons (.kbytes [115, 112, 97, 109]) (.bbytes [101, 103, 103, 115])
          .dnil))))
      = .ok (.bdict (.dcons (.kbytes [99, 111, 119]) (.bbytes [109, 111, 111])
        (.dcons (.kbytes [115, 112, 97, 109]) (.bbytes [101, 103, 103, 115])
          .dnil))) :=
  ⟨rfl,
   (c5_roundtrip (.bdict (.dcons (.kbytes [99, 111, 119]) (.bbytes [109, 111, 111])
      (.dcons (.kbytes [115, 112, 97, 109]) (.bbytes [101, 103, 103, 115])
        .dnil))) rfl).1⟩
